import Mathlib

/-!
Verification of the Fuji 500 collector (`fuji500_collector.py`): a
serial-to-file capture loop that frames an incoming byte stream into batch
files, splitting on an optional end-of-transmission marker and flushing on
idle timeouts.  Bytes are modelled as `Nat`.  Wall-clock instants and the
idle threshold are modelled as `Int` in arbitrary time units: the loop only
ever compares the difference `now - last_data` against the threshold, so
every statement below is uniform in the time scale.  Numeric configuration
values (which include 1.5 and 2.0) are modelled as `ℚ`.
-/

namespace Fuji500

/-- Model of matching a byte sequence at the head of a buffer:
`startsWith e m` is true when `e` is an initial segment of `m`. -/
def startsWith : List Nat → List Nat → Bool
  | [], _ => true
  | _ :: _, [] => false
  | a :: as, b :: bs => a == b && startsWith as bs

/-- Index of the first (leftmost) occurrence of `e` in `xs`, the scan
underlying Python's `in` operator and `bytes.split`. -/
def findOcc (e : List Nat) : List Nat → Option Nat
  | [] => if e = [] then some 0 else none
  | x :: xs => if startsWith e (x :: xs) then some 0
               else (findOcc e xs).map (· + 1)

/-- Model of Python's `eot in buf` substring test (fuji500_collector.py
line 168). -/
def containsSeq (e xs : List Nat) : Bool :=
  (findOcc e xs).isSome

theorem startsWith_iff {e m : List Nat} :
    startsWith e m = true ↔ ∃ r, m = e ++ r := by
  induction e generalizing m with
  | nil => simp [startsWith]
  | cons a as ih =>
    cases m with
    | nil => simp [startsWith]
    | cons b bs =>
      simp only [startsWith, Bool.and_eq_true, beq_iff_eq, ih]
      constructor
      · rintro ⟨rfl, r, rfl⟩; exact ⟨r, rfl⟩
      · rintro ⟨r, h⟩
        cases h
        exact ⟨rfl, r, rfl⟩

theorem startsWith_append (e r : List Nat) : startsWith e (e ++ r) = true :=
  startsWith_iff.mpr ⟨r, rfl⟩

theorem startsWith_length {e m : List Nat} (h : startsWith e m = true) :
    e.length ≤ m.length := by
  obtain ⟨r, rfl⟩ := startsWith_iff.mp h
  simp

theorem findOcc_some_le {e xs : List Nat} {i : Nat}
    (h : findOcc e xs = some i) : i + e.length ≤ xs.length := by
  induction xs generalizing i with
  | nil =>
    by_cases he : e = [] <;> simp [findOcc, he] at h
    simp [← h, he]
  | cons x xs ih =>
    by_cases hs : startsWith e (x :: xs) = true
    · simp [findOcc, hs] at h
      subst h
      simpa using startsWith_length hs
    · simp [findOcc, hs, Option.map_eq_some'] at h
      obtain ⟨j, hj, rfl⟩ := h
      have := ih hj
      simp only [List.length_cons]
      omega

theorem findOcc_startsWith_drop {e xs : List Nat} {i : Nat}
    (h : findOcc e xs = some i) : startsWith e (xs.drop i) = true := by
  induction xs generalizing i with
  | nil =>
    by_cases he : e = [] <;> simp [findOcc, he] at h
    subst he
    simp [← h, startsWith]
  | cons x xs ih =>
    by_cases hs : startsWith e (x :: xs) = true
    · simp [findOcc, hs] at h
      subst h
      simpa using hs
    · simp [findOcc, hs, Option.map_eq_some'] at h
      obtain ⟨j, hj, rfl⟩ := h
      simpa using ih hj

/-- Decomposition of a buffer at the first marker occurrence. -/
theorem findOcc_decomp {e xs : List Nat} {i : Nat}
    (h : findOcc e xs = some i) :
    xs = xs.take i ++ e ++ xs.drop (i + e.length) := by
  obtain ⟨r, hr⟩ := startsWith_iff.mp (findOcc_startsWith_drop h)
  have hr' : r = xs.drop (i + e.length) := by
    have : (xs.drop i).drop e.length = r := by rw [hr]; simp
    rw [← this, List.drop_drop, Nat.add_comm]
  rw [← hr', List.append_assoc, ← hr]
  exact (List.take_append_drop i xs).symm

theorem containsSeq_iff_append {e m : List Nat} :
    containsSeq e m = true ↔ ∃ u v, m = u ++ e ++ v := by
  induction m with
  | nil =>
    by_cases he : e = []
    · subst he
      constructor
      · intro _; exact ⟨[], [], rfl⟩
      · intro _; rfl
    · constructor
      · intro h; simp [containsSeq, findOcc, he] at h
      · rintro ⟨u, v, h⟩
        rcases List.append_eq_nil.mp h.symm with ⟨h1, -⟩
        rcases List.append_eq_nil.mp h1 with ⟨-, h2⟩
        exact absurd h2 he
  | cons x xs ih =>
    by_cases hs : startsWith e (x :: xs) = true
    · simp only [containsSeq, findOcc, hs, if_true, Option.isSome_some, true_iff]
      obtain ⟨r, hr⟩ := startsWith_iff.mp hs
      exact ⟨[], r, by simpa using hr⟩
    · have hstep : containsSeq e (x :: xs) = containsSeq e xs := by
        simp [containsSeq, findOcc, hs]
      rw [hstep, ih]
      constructor
      · rintro ⟨u, v, rfl⟩
        exact ⟨x :: u, v, rfl⟩
      · rintro ⟨u, v, huv⟩
        cases u with
        | nil =>
          exfalso
          exact hs (startsWith_iff.mpr ⟨v, by simpa using huv⟩)
        | cons b u' =>
          simp only [List.cons_append, List.cons.injEq] at huv
          exact ⟨u', v, huv.2⟩

/-- Leftmost-match minimality of `findOcc`. -/
theorem findOcc_min {e : List Nat} (he : e ≠ []) :
    ∀ {xs u v : List Nat} {i : Nat},
      findOcc e xs = some i → xs = u ++ e ++ v → i ≤ u.length := by
  intro xs u v i h hx
  induction u generalizing xs i with
  | nil =>
    simp only [List.nil_append] at hx
    subst hx
    obtain ⟨a, as, rfl⟩ := List.exists_cons_of_ne_nil he
    have hs : startsWith (a :: as) ((a :: as) ++ v) = true := startsWith_append _ _
    simp only [List.cons_append] at h hs
    rw [findOcc, if_pos hs] at h
    simp at h
    omega
  | cons b u' ihu =>
    simp only [List.cons_append] at hx
    subst hx
    by_cases hs : startsWith e (b :: (u' ++ e ++ v)) = true
    · rw [findOcc, if_pos hs] at h
      simp at h
      omega
    · rw [findOcc, if_neg hs] at h
      simp only [Option.map_eq_some'] at h
      obtain ⟨j, hj, rfl⟩ := h
      have := ihu hj rfl
      simp only [List.length_cons]
      omega

/-- The span strictly before the first marker occurrence is marker-free. -/
theorem containsSeq_take_eq_false {e xs : List Nat} {i : Nat} (he : e ≠ [])
    (h : findOcc e xs = some i) : containsSeq e (xs.take i) = false := by
  by_contra hc
  have hc' : containsSeq e (xs.take i) = true := by
    cases hcc : containsSeq e (xs.take i)
    · exact absurd hcc hc
    · rfl
  obtain ⟨u, v, huv⟩ := containsSeq_iff_append.mp hc'
  have hi : i ≤ xs.length := by have := findOcc_some_le h; omega
  have hlen : (xs.take i).length = i := by simp [Nat.min_eq_left hi]
  have hxs : xs = u ++ e ++ (v ++ xs.drop i) := by
    conv_lhs => rw [← List.take_append_drop i xs]
    rw [huv]
    simp [List.append_assoc]
  have hmin : i ≤ u.length := findOcc_min he h hxs
  have : u.length + e.length + v.length = i := by
    rw [← hlen, huv]; simp; omega
  have hepos : 0 < e.length := List.length_pos.mpr he
  omega

/-- Fuel-indexed model of Python's `bytes.split` (left-to-right,
non-overlapping).  The fuel only serves to make the recursion structural;
`splitSeq` below supplies enough fuel for it never to run out. -/
def splitSeqF : Nat → List Nat → List Nat → List (List Nat)
  | 0, _, xs => [xs]
  | fuel + 1, e, xs =>
    match findOcc e xs with
    | none => [xs]
    | some i => xs.take i :: splitSeqF fuel e (xs.drop (i + e.length))

/-- Model of `buf.split(eot)` (fuji500_collector.py line 169). -/
def splitSeq (e xs : List Nat) : List (List Nat) :=
  splitSeqF (xs.length + 1) e xs

theorem splitSeqF_congr {e : List Nat} (he : e ≠ []) :
    ∀ f g xs, xs.length < f → xs.length < g →
      splitSeqF f e xs = splitSeqF g e xs := by
  intro f
  induction f with
  | zero => intro g xs h; omega
  | succ f ihf =>
    intro g xs hf hg
    cases g with
    | zero => omega
    | succ g =>
      cases h : findOcc e xs with
      | none => simp [splitSeqF, h]
      | some i =>
        have hle := findOcc_some_le h
        have hepos : 0 < e.length := List.length_pos.mpr he
        have hdrop : (xs.drop (i + e.length)).length < xs.length := by
          simp only [List.length_drop]
          omega
        simp only [splitSeqF, h]
        rw [ihf g (xs.drop (i + e.length)) (by omega) (by omega)]

/-- Unfolding equation for `splitSeq` with a non-empty separator. -/
theorem splitSeq_eq {e : List Nat} (he : e ≠ []) (xs : List Nat) :
    splitSeq e xs =
      match findOcc e xs with
      | none => [xs]
      | some i => xs.take i :: splitSeq e (xs.drop (i + e.length)) := by
  show splitSeqF (xs.length + 1) e xs = _
  cases h : findOcc e xs with
  | none => simp [splitSeqF, h]
  | some i =>
    have hle := findOcc_some_le h
    have hepos : 0 < e.length := List.length_pos.mpr he
    have hdrop : (xs.drop (i + e.length)).length < xs.length := by
      simp only [List.length_drop]
      omega
    simp only [splitSeqF, h]
    rw [splitSeqF_congr he xs.length ((xs.drop (i + e.length)).length + 1)
      (xs.drop (i + e.length)) (by omega) (by omega)]
    rfl

theorem splitSeq_ne_nil {e : List Nat} (he : e ≠ []) (xs : List Nat) :
    splitSeq e xs ≠ [] := by
  rw [splitSeq_eq he]
  cases findOcc e xs <;> simp

/-- Reconstruction device used to state the round-trip claim: join a list of
spans, inserting the separator between consecutive spans. -/
def joinSep (e : List Nat) : List (List Nat) → List Nat
  | [] => []
  | [x] => x
  | x :: y :: ys => x ++ e ++ joinSep e (y :: ys)

theorem joinSep_cons_of_ne {e x : List Nat} {l : List (List Nat)}
    (h : l ≠ []) : joinSep e (x :: l) = x ++ e ++ joinSep e l := by
  cases l with
  | nil => exact absurd rfl h
  | cons y ys => rfl

theorem joinSep_nil_sep (l : List (List Nat)) : joinSep [] l = l.flatten := by
  induction l with
  | nil => rfl
  | cons x l ih =>
    cases l with
    | nil => simp [joinSep]
    | cons y ys => simp only [joinSep, ih, List.flatten_cons]; simp

/-- Splitting and rejoining with the separator reconstructs the buffer. -/
theorem joinSep_splitSeq {e : List Nat} (he : e ≠ []) (xs : List Nat) :
    joinSep e (splitSeq e xs) = xs := by
  have key : ∀ n xs, List.length xs ≤ n → joinSep e (splitSeq e xs) = xs := by
    intro n
    induction n with
    | zero =>
      intro xs hxs
      have : xs = [] := List.length_eq_zero.mp (Nat.le_zero.mp hxs)
      subst this
      rw [splitSeq_eq he]
      have : findOcc e [] = none := by simp [findOcc, he]
      rw [this]
      rfl
    | succ n ih =>
      intro xs hxs
      rw [splitSeq_eq he]
      cases h : findOcc e xs with
      | none => rfl
      | some i =>
        have hle := findOcc_some_le h
        have hepos : 0 < e.length := List.length_pos.mpr he
        have hdrop : (xs.drop (i + e.length)).length ≤ n := by
          simp only [List.length_drop]
          omega
        rw [joinSep_cons_of_ne (splitSeq_ne_nil he _), ih _ hdrop]
        exact (findOcc_decomp h).symm
  exact key xs.length xs le_rfl

/-- Every span produced by the split is marker-free. -/
theorem splitSeq_not_contains {e : List Nat} (he : e ≠ []) (xs : List Nat) :
    ∀ p ∈ splitSeq e xs, containsSeq e p = false := by
  have key : ∀ n xs, List.length xs ≤ n →
      ∀ p ∈ splitSeq e xs, containsSeq e p = false := by
    intro n
    induction n with
    | zero =>
      intro xs hxs p hp
      have : xs = [] := List.length_eq_zero.mp (Nat.le_zero.mp hxs)
      subst this
      rw [splitSeq_eq he] at hp
      have h0 : findOcc e [] = none := by simp [findOcc, he]
      rw [h0] at hp
      simp at hp
      subst hp
      simp [containsSeq, h0]
    | succ n ih =>
      intro xs hxs p hp
      rw [splitSeq_eq he] at hp
      cases h : findOcc e xs with
      | none =>
        rw [h] at hp
        simp at hp
        subst hp
        simp [containsSeq, h]
      | some i =>
        rw [h] at hp
        have hle := findOcc_some_le h
        have hepos : 0 < e.length := List.length_pos.mpr he
        rcases List.mem_cons.mp hp with rfl | hmem
        · exact containsSeq_take_eq_false he h
        · have hdrop : (xs.drop (i + e.length)).length ≤ n := by
            simp only [List.length_drop]
            omega
          exact ih _ hdrop p hmem
  exact key xs.length xs le_rfl

/-- A split triggered by a found occurrence yields at least two spans. -/
theorem splitSeq_of_contains {e xs : List Nat} (he : e ≠ [])
    (hc : containsSeq e xs = true) :
    ∃ p0 pt, splitSeq e xs = p0 :: pt ∧ pt ≠ [] := by
  obtain ⟨i, h⟩ := Option.isSome_iff_exists.mp hc
  refine ⟨xs.take i, splitSeq e (xs.drop (i + e.length)), ?_, splitSeq_ne_nil he _⟩
  rw [splitSeq_eq he, h]

theorem joinSep_snoc_append (e : List Nat) (cs : List (List Nat))
    (b c : List Nat) :
    joinSep e (cs ++ [b]) ++ c = joinSep e (cs ++ [b ++ c]) := by
  induction cs with
  | nil => rfl
  | cons a cs ih =>
    have h1 : cs ++ [b] ≠ [] := by simp
    have h2 : cs ++ [b ++ c] ≠ [] := by simp
    simp only [List.cons_append, joinSep_cons_of_ne h1, joinSep_cons_of_ne h2,
      List.append_assoc, ih]

theorem joinSep_cons_head_append (e pre z : List Nat) (zs : List (List Nat)) :
    joinSep e ((pre ++ z) :: zs) = pre ++ joinSep e (z :: zs) := by
  cases zs with
  | nil => rfl
  | cons y ys =>
    simp [joinSep_cons_of_ne (show y :: ys ≠ [] by simp), List.append_assoc]

theorem joinSep_snoc_joinSep (e : List Nat) (cs : List (List Nat))
    {zs : List (List Nat)} (hzs : zs ≠ []) :
    joinSep e (cs ++ [joinSep e zs]) = joinSep e (cs ++ zs) := by
  induction cs with
  | nil => simp [joinSep]
  | cons a cs ih =>
    have h1 : cs ++ [joinSep e zs] ≠ [] := by simp
    have h2 : cs ++ zs ≠ [] := by simp [hzs]
    simp only [List.cons_append, joinSep_cons_of_ne h1, joinSep_cons_of_ne h2, ih]

/- ===================  The framer loop  =================== -/

/-- Which branch of the loop flushed a batch: the marker branch ("Archivo
(por EOT)") or the inactivity branch ("Archivo (por inactividad)"). -/
inductive Trigger where
  | marker
  | idle
deriving DecidableEq, Repr

/-- One durable append-write of a completed batch: the trigger that fired,
the output path the bytes were appended to, and the bytes themselves.
Output paths are abstracted to a counter: `_new_batch_path` yields a fresh
name per call, and the concrete timestamped name is modelled separately by
`fujiName`. -/
structure Flush where
  trig : Trigger
  path : Nat
  data : List Nat
deriving DecidableEq, Repr

/-- State of the `main` loop (fuji500_collector.py lines 153-190): the
accumulation buffer `buf`, the activity clock `last_data`, the current
output path plus the fresh-path counter, and the ordered list of flushes
performed so far (the observable file-system effect). -/
structure FState where
  buf : List Nat
  lastData : Int
  curPath : Nat
  nextPath : Nat
  out : List Flush
deriving DecidableEq, Repr

/-- Initial loop state: empty buffer, activity clock at `t0`, first
generated batch path current (lines 153-155). -/
def initState (t0 : Int) : FState :=
  { buf := [], lastData := t0, curPath := 0, nextPath := 1, out := [] }

/-- Body of `for part in parts[:-1]` (lines 171-176): a non-empty span is
appended to the current path and a fresh path is generated; an empty span
is skipped. -/
def flushPart (s : FState) (part : List Nat) : FState :=
  if part.isEmpty then s
  else
    { s with out := s.out ++ [⟨Trigger.marker, s.curPath, part⟩],
             curPath := s.nextPath, nextPath := s.nextPath + 1 }

/-- One iteration of the `while True` loop (lines 157-190).  The input is
the chunk returned by `ser.read(1024)` (empty on timeout) together with the
`time.time()` value `now` sampled for this iteration. -/
def step (eot : Option (List Nat)) (idle : Int) (s : FState)
    (inp : List Nat × Int) : FState :=
  let chunk := inp.1
  let now := inp.2
  if chunk.isEmpty then
    -- lines 180-190: no data this cycle; flush on sufficient inactivity
    if ¬ s.buf.isEmpty ∧ now - s.lastData ≥ idle then
      { s with out := s.out ++ [⟨Trigger.idle, s.curPath, s.buf⟩],
               buf := [],
               curPath := s.nextPath, nextPath := s.nextPath + 1 }
    else s
  else
    -- lines 162-178: append to the buffer, update the activity clock,
    -- then split on the marker when one is configured and present
    let buf1 := s.buf ++ chunk
    let s1 := { s with buf := buf1, lastData := now }
    match eot with
    | none => s1
    | some e =>
      if ¬ e.isEmpty ∧ containsSeq e buf1 then
        let parts := splitSeq e buf1
        let s2 := parts.dropLast.foldl flushPart s1
        { s2 with buf := parts.getLastD [] }
      else s1

/-- The collector loop run on a finite prefix of read results. -/
def run (eot : Option (List Nat)) (idle : Int) (t0 : Int)
    (inputs : List (List Nat × Int)) : FState :=
  inputs.foldl (step eot idle) (initState t0)

/-- Concatenation of all bytes durably written, in flush order. -/
def outBytes (s : FState) : List Nat :=
  (s.out.map Flush.data).flatten

/-- The flush records the marker branch appends for a list of (already
non-empty) spans: the first span goes to the current path `cur`, and each
flush rotates to a freshly generated path. -/
def markerFlushes (cur nxt : Nat) : List (List Nat) → List Flush
  | [] => []
  | p :: ps => ⟨Trigger.marker, cur, p⟩ :: markerFlushes nxt (nxt + 1) ps

theorem markerFlushes_map_data (cur nxt : Nat) (ps : List (List Nat)) :
    (markerFlushes cur nxt ps).map Flush.data = ps := by
  induction ps generalizing cur nxt with
  | nil => rfl
  | cons p ps ih => simp [markerFlushes, ih]

theorem markerFlushes_trig {cur nxt : Nat} {ps : List (List Nat)} :
    ∀ f ∈ markerFlushes cur nxt ps, f.trig = Trigger.marker := by
  induction ps generalizing cur nxt with
  | nil => intro f hf; simp [markerFlushes] at hf
  | cons p ps ih =>
    intro f hf
    rcases List.mem_cons.mp hf with rfl | hf'
    · rfl
    · exact ih f hf'

theorem markerFlushes_data_mem {cur nxt : Nat} {ps : List (List Nat)}
    {f : Flush} (hf : f ∈ markerFlushes cur nxt ps) : f.data ∈ ps := by
  have := List.mem_map_of_mem Flush.data hf
  rwa [markerFlushes_map_data] at this

theorem flatten_filter_nonEmpty (ps : List (List Nat)) :
    (ps.filter (fun p => !p.isEmpty)).flatten = ps.flatten := by
  induction ps with
  | nil => rfl
  | cons p ps ih =>
    by_cases hp : p.isEmpty
    · have : p = [] := by simpa [List.isEmpty_iff] using hp
      subst this
      simpa using ih
    · simp [List.filter_cons, hp, ih]

theorem foldl_flushPart_out (ps : List (List Nat)) (s : FState) :
    (ps.foldl flushPart s).out =
      s.out ++ markerFlushes s.curPath s.nextPath (ps.filter (fun p => !p.isEmpty)) := by
  induction ps generalizing s with
  | nil => simp [markerFlushes]
  | cons p ps ih =>
    by_cases hp : p.isEmpty
    · simp only [List.foldl_cons, flushPart, if_pos hp, List.filter_cons,
        hp, Bool.not_true]
      exact ih s
    · simp only [List.foldl_cons, flushPart, if_neg hp, List.filter_cons]
      rw [ih]
      simp [hp, markerFlushes]

theorem foldl_flushPart_buf (ps : List (List Nat)) (s : FState) :
    (ps.foldl flushPart s).buf = s.buf := by
  induction ps generalizing s with
  | nil => rfl
  | cons p ps ih =>
    by_cases hp : p.isEmpty <;> simp only [List.foldl_cons, flushPart, hp] <;>
      simp [ih]

theorem foldl_flushPart_lastData (ps : List (List Nat)) (s : FState) :
    (ps.foldl flushPart s).lastData = s.lastData := by
  induction ps generalizing s with
  | nil => rfl
  | cons p ps ih =>
    by_cases hp : p.isEmpty <;> simp only [List.foldl_cons, flushPart, hp] <;>
      simp [ih]

/-- No-data branch, inactivity threshold reached with a non-empty buffer
(lines 183-188): the whole buffer goes to the current path, the buffer is
cleared and a fresh path is generated. -/
theorem step_idle_flush {eot : Option (List Nat)} {idle : Int} {s : FState}
    {now : Int} (hb : s.buf ≠ []) (ht : now - s.lastData ≥ idle) :
    step eot idle s ([], now) =
      { s with out := s.out ++ [⟨Trigger.idle, s.curPath, s.buf⟩],
               buf := [],
               curPath := s.nextPath, nextPath := s.nextPath + 1 } := by
  have hb' : ¬ s.buf.isEmpty := by simpa [List.isEmpty_iff] using hb
  simp [step, hb', ht]

/-- No-data branch, nothing to flush (empty buffer or threshold not yet
reached): the state is untouched. -/
theorem step_idle_skip {eot : Option (List Nat)} {idle : Int} {s : FState}
    {now : Int} (h : ¬ (s.buf ≠ [] ∧ now - s.lastData ≥ idle)) :
    step eot idle s ([], now) = s := by
  simp only [step, List.isEmpty_nil, if_true]
  rw [if_neg]
  intro ⟨h1, h2⟩
  exact h ⟨by simpa [List.isEmpty_iff] using h1, h2⟩

/-- Data branch with no configured marker (lines 162-165): append and
update the activity clock. -/
theorem step_data_none {idle : Int} {s : FState} {chunk : List Nat}
    {now : Int} (hch : chunk ≠ []) :
    step none idle s (chunk, now) =
      { s with buf := s.buf ++ chunk, lastData := now } := by
  have hch' : ¬ chunk.isEmpty := by simpa [List.isEmpty_iff] using hch
  simp [step, hch']

/-- Data branch with a configured marker that does not occur in the grown
buffer: append and update the activity clock only. -/
theorem step_data_nomatch {idle : Int} {s : FState} {e chunk : List Nat}
    {now : Int} (hch : chunk ≠ [])
    (h : ¬ (e ≠ [] ∧ containsSeq e (s.buf ++ chunk) = true)) :
    step (some e) idle s (chunk, now) =
      { s with buf := s.buf ++ chunk, lastData := now } := by
  have hch' : ¬ chunk.isEmpty := by simpa [List.isEmpty_iff] using hch
  simp only [step, hch', Bool.false_eq_true, if_false]
  rw [if_neg]
  intro ⟨h1, h2⟩
  exact h ⟨by simpa [List.isEmpty_iff] using h1, h2⟩

/-- Data branch with the marker present (lines 167-178): flush records. -/
theorem step_data_split_out {idle : Int} {s : FState} {e chunk : List Nat}
    {now : Int} (hch : chunk ≠ []) (he : e ≠ [])
    (hc : containsSeq e (s.buf ++ chunk) = true) :
    (step (some e) idle s (chunk, now)).out =
      s.out ++ markerFlushes s.curPath s.nextPath
        ((splitSeq e (s.buf ++ chunk)).dropLast.filter (fun p => !p.isEmpty)) := by
  have hch' : ¬ chunk.isEmpty := by simpa [List.isEmpty_iff] using hch
  have he' : ¬ e.isEmpty := by simpa [List.isEmpty_iff] using he
  simp only [step, hch', Bool.false_eq_true, if_false, he', hc,
    not_false_eq_true, and_self, if_true]
  exact foldl_flushPart_out _ _

/-- Data branch with the marker present: the trailing remainder becomes
the new accumulation buffer. -/
theorem step_data_split_buf {idle : Int} {s : FState} {e chunk : List Nat}
    {now : Int} (hch : chunk ≠ []) (he : e ≠ [])
    (hc : containsSeq e (s.buf ++ chunk) = true) :
    (step (some e) idle s (chunk, now)).buf =
      (splitSeq e (s.buf ++ chunk)).getLastD [] := by
  have hch' : ¬ chunk.isEmpty := by simpa [List.isEmpty_iff] using hch
  have he' : ¬ e.isEmpty := by simpa [List.isEmpty_iff] using he
  simp only [step, hch', Bool.false_eq_true, if_false, he', hc,
    not_false_eq_true, and_self, if_true]

theorem getLastD_mem {α : Type} : ∀ (l : List α) (d : α), l ≠ [] →
    l.getLastD d ∈ l := by
  intro l
  induction l with
  | nil => intro d h; exact absurd rfl h
  | cons a l ih =>
    intro d _
    cases l with
    | nil => simp [List.getLastD]
    | cons b l' => exact List.mem_cons_of_mem a (ih a (by simp))

theorem dropLast_append_getLastD {α : Type} : ∀ (l : List α) (d : α),
    l ≠ [] → l.dropLast ++ [l.getLastD d] = l := by
  intro l
  induction l with
  | nil => intro d h; exact absurd rfl h
  | cons a l ih =>
    intro d _
    cases l with
    | nil => simp [List.getLastD]
    | cons b l' =>
      have h1 : (a :: b :: l').getLastD d = (b :: l').getLastD a := rfl
      rw [List.dropLast_cons₂, h1, List.cons_append, ih a (by simp)]

theorem getLastD_irrel {α : Type} : ∀ (l : List α), l ≠ [] → ∀ (d d' : α),
    l.getLastD d = l.getLastD d' := by
  intro l
  induction l with
  | nil => intro h; exact absurd rfl h
  | cons a l _ =>
    intro _ d d'
    cases l <;> rfl

theorem containsSeq_nil {e : List Nat} (he : e ≠ []) :
    containsSeq e [] = false := by
  simp [containsSeq, findOcc, he]

theorem append_cancel_l {α : Type} {a b c : List α} (h : a ++ b = a ++ c) :
    b = c :=
  (List.append_inj h rfl).2

theorem append_cancel_r {α : Type} {a b c : List α} (h : a ++ c = b ++ c) :
    a = b := by
  have hl : a.length = b.length := by
    have := congrArg List.length h
    simp only [List.length_append] at this
    omega
  exact (List.append_inj h hl).1

/-- The activity clock is written exactly on data arrivals: a data
iteration stamps `now`, while flushes of either kind leave it alone. -/
theorem step_lastData (eot : Option (List Nat)) (idle : Int) (s : FState)
    (chunk : List Nat) (now : Int) :
    (step eot idle s (chunk, now)).lastData =
      if chunk = [] then s.lastData else now := by
  by_cases hch : chunk = []
  · subst hch
    rw [if_pos rfl]
    by_cases h : s.buf ≠ [] ∧ now - s.lastData ≥ idle
    · rw [step_idle_flush h.1 h.2]
    · rw [step_idle_skip h]
  · rw [if_neg hch]
    cases eot with
    | none => rw [step_data_none hch]
    | some e =>
      by_cases h : e ≠ [] ∧ containsSeq e (s.buf ++ chunk) = true
      · have hch' : ¬ chunk.isEmpty := by simpa [List.isEmpty_iff] using hch
        have he' : ¬ e.isEmpty := by simpa [List.isEmpty_iff] using h.1
        simp only [step, hch', Bool.false_eq_true, if_false, he', h.2,
          not_false_eq_true, and_self, if_true]
        exact foldl_flushPart_lastData _ _
      · rw [step_data_nomatch hch h]

/-- With no marker in effect the loop only ever performs idle flushes. -/
theorem step_none_trig {idle : Int} {s : FState} {inp : List Nat × Int}
    (h : ∀ f ∈ s.out, f.trig = Trigger.idle) :
    ∀ f ∈ (step none idle s inp).out, f.trig = Trigger.idle := by
  obtain ⟨chunk, now⟩ := inp
  by_cases hch : chunk = []
  · subst hch
    by_cases hcond : s.buf ≠ [] ∧ now - s.lastData ≥ idle
    · rw [step_idle_flush hcond.1 hcond.2]
      intro f hf
      simp only [List.mem_append, List.mem_singleton] at hf
      rcases hf with hf | rfl
      · exact h f hf
      · rfl
    · rw [step_idle_skip hcond]; exact h
  · rw [step_data_none hch]; exact h

theorem run_none_trig (idle t0 : Int) (inputs : List (List Nat × Int)) :
    ∀ f ∈ (run none idle t0 inputs).out, f.trig = Trigger.idle := by
  have key : ∀ (l : List (List Nat × Int)) (s : FState),
      (∀ f ∈ s.out, f.trig = Trigger.idle) →
      ∀ f ∈ (l.foldl (step none idle) s).out, f.trig = Trigger.idle := by
    intro l
    induction l with
    | nil => intro s h; exact h
    | cons p l ih =>
      intro s h
      exact ih _ (step_none_trig h)
  exact key inputs (initState t0) (by intro f hf; simp [initState] at hf)

/-- Marker-freedom is preserved by every loop iteration: the buffer stays
marker-free and every flushed batch is marker-free. -/
theorem step_marker_free {idle : Int} {e : List Nat} (he : e ≠ [])
    {s : FState} {inp : List Nat × Int}
    (hbuf : containsSeq e s.buf = false)
    (hout : ∀ f ∈ s.out, containsSeq e f.data = false) :
    containsSeq e (step (some e) idle s inp).buf = false ∧
      ∀ f ∈ (step (some e) idle s inp).out, containsSeq e f.data = false := by
  obtain ⟨chunk, now⟩ := inp
  by_cases hch : chunk = []
  · subst hch
    by_cases hcond : s.buf ≠ [] ∧ now - s.lastData ≥ idle
    · rw [step_idle_flush hcond.1 hcond.2]
      refine ⟨containsSeq_nil he, ?_⟩
      intro f hf
      simp only [List.mem_append, List.mem_singleton] at hf
      rcases hf with hf | rfl
      · exact hout f hf
      · exact hbuf
    · rw [step_idle_skip hcond]; exact ⟨hbuf, hout⟩
  · by_cases hc : containsSeq e (s.buf ++ chunk) = true
    · constructor
      · rw [step_data_split_buf hch he hc]
        exact splitSeq_not_contains he _ _
          (getLastD_mem _ _ (splitSeq_ne_nil he (s.buf ++ chunk)))
      · rw [step_data_split_out hch he hc]
        intro f hf
        simp only [List.mem_append] at hf
        rcases hf with hf | hf
        · exact hout f hf
        · have hd := markerFlushes_data_mem hf
          have hd2 : f.data ∈ (splitSeq e (s.buf ++ chunk)).dropLast :=
            List.mem_of_mem_filter hd
          exact splitSeq_not_contains he _ _ (List.dropLast_subset _ hd2)
    · have hc' : ¬ (e ≠ [] ∧ containsSeq e (s.buf ++ chunk) = true) :=
        fun hp => hc hp.2
      rw [step_data_nomatch hch hc']
      refine ⟨?_, hout⟩
      cases hcc : containsSeq e (s.buf ++ chunk)
      · rfl
      · exact absurd hcc hc

theorem run_marker_free {e : List Nat} (he : e ≠ [])
    (idle t0 : Int) (inputs : List (List Nat × Int)) :
    containsSeq e (run (some e) idle t0 inputs).buf = false ∧
      ∀ f ∈ (run (some e) idle t0 inputs).out,
        containsSeq e f.data = false := by
  have key : ∀ (l : List (List Nat × Int)) (s : FState),
      containsSeq e s.buf = false →
      (∀ f ∈ s.out, containsSeq e f.data = false) →
      containsSeq e (l.foldl (step (some e) idle) s).buf = false ∧
        ∀ f ∈ (l.foldl (step (some e) idle) s).out,
          containsSeq e f.data = false := by
    intro l
    induction l with
    | nil => intro s h1 h2; exact ⟨h1, h2⟩
    | cons p l ih =>
      intro s h1 h2
      obtain ⟨h1', h2'⟩ := step_marker_free he h1 h2
      exact ih _ h1' h2'
  exact key inputs (initState t0) (containsSeq_nil he)
    (by intro f hf; simp [initState] at hf)

/-- Reconstruction invariant carried by every loop iteration: the input
consumed so far is the separator-join of a non-empty list of spans whose
plain concatenation is exactly the flushed bytes followed by the current
buffer, the buffer being a trailing span. -/
theorem step_recon (eot : Option (List Nat)) (idle : Int) (s : FState)
    (chunk : List Nat) (now : Int) (X : List Nat)
    (h : ∃ cs b2, X = joinSep (eot.getD []) (cs ++ [b2]) ∧
      outBytes s ++ s.buf = (cs ++ [b2]).flatten ∧
      ∃ pre, b2 = pre ++ s.buf) :
    ∃ cs b2, X ++ chunk = joinSep (eot.getD []) (cs ++ [b2]) ∧
      outBytes (step eot idle s (chunk, now)) ++
        (step eot idle s (chunk, now)).buf = (cs ++ [b2]).flatten ∧
      ∃ pre, b2 = pre ++ (step eot idle s (chunk, now)).buf := by
  obtain ⟨cs, b2, hX, hout, pre, hpre⟩ := h
  by_cases hch : chunk = []
  · subst hch
    rw [List.append_nil]
    by_cases hcond : s.buf ≠ [] ∧ now - s.lastData ≥ idle
    · rw [step_idle_flush hcond.1 hcond.2]
      refine ⟨cs, b2, hX, ?_, b2, by simp⟩
      simp only [outBytes, List.map_append, List.flatten_append, List.map_cons,
        List.map_nil, List.flatten_cons, List.flatten_nil, List.append_nil]
      simpa [outBytes] using hout
    · rw [step_idle_skip hcond]
      exact ⟨cs, b2, hX, hout, pre, hpre⟩
  · -- data branch: the buffer grows by `chunk`
    have hgrow : ∀ s' : FState, s'.out = s.out → s'.buf = s.buf ++ chunk →
        ∃ cs' b2', X ++ chunk = joinSep (eot.getD []) (cs' ++ [b2']) ∧
          outBytes s' ++ s'.buf = (cs' ++ [b2']).flatten ∧
          ∃ pre', b2' = pre' ++ s'.buf := by
      intro s' hsout hsbuf
      refine ⟨cs, b2 ++ chunk, ?_, ?_, pre, by rw [hsbuf, hpre, List.append_assoc]⟩
      · rw [hX, joinSep_snoc_append]
      · have : outBytes s' = outBytes s := by simp [outBytes, hsout]
        rw [this, hsbuf, ← List.append_assoc, hout]
        simp [List.append_assoc]
    cases eot with
    | none =>
      have hs := @step_data_none idle s chunk now hch
      exact hgrow _ (by rw [hs]) (by rw [hs])
    | some e =>
      by_cases hsplit : e ≠ [] ∧ containsSeq e (s.buf ++ chunk) = true
      · obtain ⟨he, hc⟩ := hsplit
        obtain ⟨p0, pt, hparts, hpt⟩ := splitSeq_of_contains he hc
        -- bytes written this step plus the new buffer are the flatten of
        -- all split spans
        have houtnew : outBytes (step (some e) idle s (chunk, now)) ++
            (step (some e) idle s (chunk, now)).buf =
            outBytes s ++ (splitSeq e (s.buf ++ chunk)).flatten := by
          have h1 : outBytes (step (some e) idle s (chunk, now)) =
              outBytes s ++ (splitSeq e (s.buf ++ chunk)).dropLast.flatten := by
            have h2 := @step_data_split_out idle s e chunk now hch he hc
            simp only [outBytes, h2, List.map_append, List.flatten_append,
              markerFlushes_map_data, flatten_filter_nonEmpty]
          rw [h1, step_data_split_buf hch he hc, List.append_assoc]
          have h3 : (splitSeq e (s.buf ++ chunk)).dropLast.flatten ++
              (splitSeq e (s.buf ++ chunk)).getLastD [] =
              (splitSeq e (s.buf ++ chunk)).flatten := by
            conv_rhs =>
              rw [← dropLast_append_getLastD (splitSeq e (s.buf ++ chunk)) []
                (splitSeq_ne_nil he _)]
            simp
          rw [h3]
        have hpre_out : outBytes s = cs.flatten ++ pre := by
          apply @append_cancel_r Nat _ _ s.buf
          rw [hout, hpre]
          simp [List.append_assoc]
        -- splice the split spans into the reconstruction
        refine ⟨cs ++ ((pre ++ p0) :: pt).dropLast,
                ((pre ++ p0) :: pt).getLastD [], ?_, ?_, ?_⟩
        · have hT : cs ++ ((pre ++ p0) :: pt).dropLast ++
              [((pre ++ p0) :: pt).getLastD []] = cs ++ (pre ++ p0) :: pt := by
            rw [List.append_assoc,
              dropLast_append_getLastD ((pre ++ p0) :: pt) [] (by simp)]
          rw [hT, hX, joinSep_snoc_append]
          have hb2 : b2 ++ chunk = joinSep e ((pre ++ p0) :: pt) := by
            rw [joinSep_cons_head_append, ← hparts, joinSep_splitSeq he, hpre,
              List.append_assoc]
          have := joinSep_snoc_joinSep e cs
            (show (pre ++ p0) :: pt ≠ [] by simp)
          simp only [Option.getD_some]
          rw [hb2, this]
        · have hT : cs ++ ((pre ++ p0) :: pt).dropLast ++
              [((pre ++ p0) :: pt).getLastD []] = cs ++ (pre ++ p0) :: pt := by
            rw [List.append_assoc,
              dropLast_append_getLastD ((pre ++ p0) :: pt) [] (by simp)]
          rw [hT, houtnew, hparts, hpre_out]
          simp [List.append_assoc]
        · refine ⟨[], ?_⟩
          rw [step_data_split_buf hch he hc, hparts, List.nil_append]
          have h1 : ((pre ++ p0) :: pt).getLastD [] = pt.getLastD (pre ++ p0) := by
            cases pt <;> rfl
          have h2 : (p0 :: pt).getLastD [] = pt.getLastD p0 := by
            cases pt <;> rfl
          rw [h1, h2]
          exact getLastD_irrel pt hpt _ _
      · exact hgrow _ (by rw [step_data_nomatch hch hsplit]) (by rw [step_data_nomatch hch hsplit])

theorem run_recon (eot : Option (List Nat)) (idle t0 : Int)
    (inputs : List (List Nat × Int)) :
    ∃ cs b2, (inputs.map Prod.fst).flatten = joinSep (eot.getD []) (cs ++ [b2]) ∧
      outBytes (run eot idle t0 inputs) ++ (run eot idle t0 inputs).buf =
        (cs ++ [b2]).flatten ∧
      ∃ pre, b2 = pre ++ (run eot idle t0 inputs).buf := by
  have key : ∀ (l : List (List Nat × Int)) (s : FState) (X : List Nat),
      (∃ cs b2, X = joinSep (eot.getD []) (cs ++ [b2]) ∧
        outBytes s ++ s.buf = (cs ++ [b2]).flatten ∧
        ∃ pre, b2 = pre ++ s.buf) →
      ∃ cs b2, X ++ (l.map Prod.fst).flatten =
          joinSep (eot.getD []) (cs ++ [b2]) ∧
        outBytes (l.foldl (step eot idle) s) ++
          (l.foldl (step eot idle) s).buf = (cs ++ [b2]).flatten ∧
        ∃ pre, b2 = pre ++ (l.foldl (step eot idle) s).buf := by
    intro l
    induction l with
    | nil => intro s X h; simpa using h
    | cons p l ih =>
      intro s X h
      obtain ⟨chunk, now⟩ := p
      have hstep := step_recon eot idle s chunk now X h
      have := ih (step eot idle s (chunk, now)) (X ++ chunk) hstep
      simpa [List.append_assoc] using this
  have hinit : ∃ cs b2, ([] : List Nat) = joinSep (eot.getD []) (cs ++ [b2]) ∧
      outBytes (initState t0) ++ (initState t0).buf = (cs ++ [b2]).flatten ∧
      ∃ pre, b2 = pre ++ (initState t0).buf :=
    ⟨[], [], rfl, rfl, [], rfl⟩
  simpa using key inputs (initState t0) [] hinit

/- ===================  Batch naming  =================== -/

/-- Zero-padded fixed-width decimal rendering of a field, digit values
most-significant first, as produced by `strftime` for `%Y`, `%m`, `%d`,
`%H`, `%M`, `%S` and `%f` (widths 4, 2, 2, 2, 2, 2 and 6). -/
def padDigits : Nat → Nat → List Nat
  | 0, _ => []
  | w + 1, n => n / 10 ^ w % 10 :: padDigits w (n % 10 ^ w)

/-- ASCII codes of the zero-padded decimal rendering. -/
def digitsAscii (w n : Nat) : List Nat :=
  (padDigits w n).map (fun d => d + 48)

/-- A capture timestamp as sampled by `datetime.datetime.now()`, broken
into the fields that `strftime("%Y%m%d_%H%M%S_%f")` renders. -/
structure TS where
  year : Nat
  month : Nat
  day : Nat
  hour : Nat
  minute : Nat
  second : Nat
  micro : Nat
deriving DecidableEq, Repr

/-- Byte string of the file name generated by `_new_batch_path`
(fuji500_collector.py lines 106-109): `fuji500_` then
`%Y%m%d_%H%M%S_%f` then `.raw` (the landing-directory part is common to
all names and omitted). -/
def fujiName (t : TS) : List Nat :=
  [102, 117, 106, 105, 53, 48, 48, 95]
    ++ digitsAscii 4 t.year ++ digitsAscii 2 t.month ++ digitsAscii 2 t.day
    ++ [95]
    ++ digitsAscii 2 t.hour ++ digitsAscii 2 t.minute ++ digitsAscii 2 t.second
    ++ [95]
    ++ digitsAscii 6 t.micro
    ++ [46, 114, 97, 119]

theorem padDigits_inj : ∀ (w m n : Nat), m < 10 ^ w → n < 10 ^ w →
    padDigits w m = padDigits w n → m = n := by
  intro w
  induction w with
  | zero =>
    intro m n hm hn _
    simp only [pow_zero, Nat.lt_one_iff] at hm hn
    omega
  | succ w ih =>
    intro m n hm hn h
    simp only [padDigits, List.cons.injEq] at h
    obtain ⟨h1, h2⟩ := h
    rw [pow_succ] at hm hn
    have hm1 : m / 10 ^ w < 10 := Nat.div_lt_of_lt_mul hm
    have hn1 : n / 10 ^ w < 10 := Nat.div_lt_of_lt_mul hn
    rw [Nat.mod_eq_of_lt hm1, Nat.mod_eq_of_lt hn1] at h1
    have hpos : 0 < 10 ^ w := Nat.pos_pow_of_pos w (by omega)
    have h2' := ih _ _ (Nat.mod_lt _ hpos) (Nat.mod_lt _ hpos) h2
    have hdm := Nat.div_add_mod m (10 ^ w)
    have hdn := Nat.div_add_mod n (10 ^ w)
    have hmul : 10 ^ w * (m / 10 ^ w) = 10 ^ w * (n / 10 ^ w) := by rw [h1]
    omega

theorem digitsAscii_inj {w m n : Nat} (hm : m < 10 ^ w) (hn : n < 10 ^ w)
    (h : digitsAscii w m = digitsAscii w n) : m = n := by
  apply padDigits_inj w m n hm hn
  have hmap : Function.Injective (fun d : Nat => d + 48) := by
    intro a b hab
    have hab' : a + 48 = b + 48 := hab
    omega
  exact List.map_injective_iff.mpr hmap h

/- ===================  Startup configuration  =================== -/

/-- Digit accumulator for the decimal parts of Python `int()`/`float()`
literals; fails on any non-digit character. -/
def decValAux : List Char → Nat → Option Nat
  | [], acc => some acc
  | c :: cs, acc =>
    if c.isDigit then decValAux cs (10 * acc + (c.toNat - 48)) else none

/-- Model of Python's `int()` on a string: an optional sign followed by at
least one decimal digit; anything else raises (returns `none`). -/
def parseIntPy (s : String) : Option Int :=
  let digits : List Char → Option Int := fun l =>
    match l with
    | [] => none
    | _ => (decValAux l 0).map fun n => (n : Int)
  match s.data with
  | '-' :: r => (digits r).map fun n => -n
  | '+' :: r => digits r
  | l => digits l

/-- Model of `_get_env_int` (fuji500_collector.py lines 47-52):
`int(os.environ.get(name, str(default)))` guarded by a bare `except` that
returns the default. -/
def getEnvInt (v : Option String) (default : Int) : Int :=
  match parseIntPy (v.getD (toString default)) with
  | some n => n
  | none => default

/-- Splits a character list at the first dot, if any. -/
def splitDot : List Char → List Char × Option (List Char)
  | [] => ([], none)
  | c :: cs =>
    if c = '.' then ([], some cs)
    else
      let r := splitDot cs
      (c :: r.1, r.2)

/-- Model of Python's `float()` on a string, restricted to the decimal
forms `[+|-] digits [. digits]` actually relevant to this configuration
(exponent, infinity and NaN spellings are omitted; all of those parse to
values no configuration here uses, and every string rejected by this model
is also a `float()` error or irrelevant).  Returns `none` where `float()`
raises `ValueError`. -/
def parseFloatQ (s : String) : Option ℚ :=
  let core : List Char → ℚ → Option ℚ := fun m sgn =>
    match m with
    | [] => none
    | _ =>
      match splitDot m with
      | (ip, none) =>
        match ip with
        | [] => none
        | _ => (decValAux ip 0).map fun n => sgn * (n : ℚ)
      | (ip, some fp) =>
        if ip.isEmpty ∧ fp.isEmpty then none
        else
          match decValAux ip 0, decValAux fp 0 with
          | some a, some b =>
            some (sgn * ((a : ℚ) + (b : ℚ) / (10 : ℚ) ^ fp.length))
          | _, _ => none
  match s.data with
  | '-' :: r => core r (-1)
  | '+' :: r => core r 1
  | l => core l 1

/-- Model of `_get_env_float` (lines 54-59): `float(...)` guarded by a
bare `except` returning the default (a missing variable parses the printed
default back, which we model as returning the default directly). -/
def getEnvFloat (v : Option String) (default : ℚ) : ℚ :=
  match v with
  | none => default
  | some s =>
    match parseFloatQ s with
    | some q => q
    | none => default

/-- Model of line 67, `STOPBITS = float(os.environ.get("FUJI500_STOPBITS",
"1"))`: the conversion is NOT wrapped in any `try`, so a parse failure
propagates as an exception out of module initialisation. -/
def loadStopbits (v : Option String) : Except String ℚ :=
  match parseFloatQ (v.getD "1") with
  | some q => Except.ok q
  | none => Except.error "could not convert string to float"

/-- The numeric link settings assembled at startup (lines 64-69). -/
structure LinkConfig where
  baud : Int
  bytesize : Int
  stopbits : ℚ
  timeout : ℚ
  idle : ℚ
deriving DecidableEq, Repr

/-- Model of the numeric part of the startup configuration block
(lines 64-69), reading from an environment `env`.  A stop-bits parse
failure aborts startup; every other numeric setting falls back. -/
def loadLinkConfig (env : String → Option String) : Except String LinkConfig :=
  match loadStopbits (env "FUJI500_STOPBITS") with
  | Except.error msg => Except.error msg
  | Except.ok sb =>
    Except.ok
      { baud := getEnvInt (env "FUJI500_BAUD") 9600
        bytesize := getEnvInt (env "FUJI500_BYTESIZE") 8
        stopbits := sb
        timeout := getEnvFloat (env "FUJI500_TIMEOUT") 2
        idle := getEnvFloat (env "FUJI500_IDLE_SECONDS") (3 / 2) }

/-- Data-bits mapping of `_serial_params` (lines 84-87): 5, 6 and 7 map to
the corresponding pyserial constants, anything else to EIGHTBITS. -/
def serialBytesize (b : Int) : Int :=
  if b = 5 then 5 else if b = 6 then 6 else if b = 7 then 7 else 8

/-- Stop-bits mapping of `_serial_params` (lines 100-102): 1 and 1.5 map
to the corresponding constants, anything else to STOPBITS_TWO. -/
def serialStopbits (q : ℚ) : ℚ :=
  if q = 1 then 1 else if q = 3 / 2 then 3 / 2 else 2

/-- Value of one hexadecimal digit, as accepted by `binascii.unhexlify`. -/
def hexVal (c : Char) : Option Nat :=
  if '0' ≤ c ∧ c ≤ '9' then some (c.toNat - 48)
  else if 'a' ≤ c ∧ c ≤ 'f' then some (c.toNat - 87)
  else if 'A' ≤ c ∧ c ≤ 'F' then some (c.toNat - 55)
  else none

/-- Model of `binascii.unhexlify`: pairs of hex digits to bytes; an odd
length or a non-hex character raises (returns `none`). -/
def unhexBytes : List Char → Option (List Nat)
  | [] => some []
  | [_] => none
  | a :: b :: r =>
    match hexVal a, hexVal b, unhexBytes r with
    | some x, some y, some t => some ((16 * x + y) :: t)
    | _, _, _ => none

/-- Model of the EOT preparation block (lines 134-140): an empty
`FUJI500_EOT_HEX` leaves the marker disabled silently; a non-empty value
is unhexlified, and on failure a warning is printed once and the marker is
disabled.  Returns the resulting `eot` value and whether the warning was
issued. -/
def parseEotWarn (s : String) : Option (List Nat) × Bool :=
  if s = "" then (none, false)
  else
    match unhexBytes s.data with
    | some bs => (some bs, false)
    | none => (none, true)

/- ===================  Claims  =================== -/

/-- C1 (counterexample): with marker `0x04` configured, the stream
`[65, 4, 66]` followed by an idle expiry produces the batches `[65]` and
`[66]`; their concatenation `[65, 66]` differs from the input stream
`[65, 4, 66]` even though nothing is left buffered, so the bytes written are
NOT equal to the input stream: every marker occurrence is deleted by the
split. -/
theorem C1_counterexample :
    outBytes (run (some [4]) 1 0 [([65, 4, 66], 10), ([], 20)]) = [65, 66] ∧
    (run (some [4]) 1 0 [([65, 4, 66], 10), ([], 20)]).buf = [] ∧
    ([([65, 4, 66], 10), ([], 20)].map Prod.fst).flatten = [65, 4, 66] ∧
    outBytes (run (some [4]) 1 0 [([65, 4, 66], 10), ([], 20)]) ++
        (run (some [4]) 1 0 [([65, 4, 66], 10), ([], 20)]).buf ≠
      ([([65, 4, 66], 10), ([], 20)].map Prod.fst).flatten := by
  decide

/-- C1 (amended): for every run, the input stream equals the
separator-join of a non-empty list of spans whose plain concatenation is
exactly the flushed bytes (in flush order) followed by the bytes still
buffered — i.e. the output reproduces the input except that the configured
marker occurrences consumed by splitting are deleted, with no loss,
reordering or duplication of the remaining bytes; when no marker is
configured the separator is empty and the reproduction is exact, which the
second conjunct states directly. -/
theorem C1_reconstruction :
    (∀ (eot : Option (List Nat)) (idle t0 : Int)
        (inputs : List (List Nat × Int)),
      ∃ cs : List (List Nat), cs ≠ [] ∧
        (inputs.map Prod.fst).flatten = joinSep (eot.getD []) cs ∧
        outBytes (run eot idle t0 inputs) ++ (run eot idle t0 inputs).buf =
          cs.flatten) ∧
    (∀ (idle t0 : Int) (inputs : List (List Nat × Int)),
      outBytes (run none idle t0 inputs) ++ (run none idle t0 inputs).buf =
        (inputs.map Prod.fst).flatten) := by
  constructor
  · intro eot idle t0 inputs
    obtain ⟨cs, b2, h1, h2, -⟩ := run_recon eot idle t0 inputs
    exact ⟨cs ++ [b2], by simp, h1, h2⟩
  · intro idle t0 inputs
    obtain ⟨cs, b2, h1, h2, -⟩ := run_recon none idle t0 inputs
    rw [h2]
    have h3 : joinSep ((none : Option (List Nat)).getD []) (cs ++ [b2]) =
        (cs ++ [b2]).flatten := joinSep_nil_sep _
    rw [← h3, ← h1]

/-- C2 (confirmed): whenever a read yields data and the configured marker
occurs in the grown buffer, the buffer is split on every occurrence; the
flush list is extended by exactly the non-empty spans before markers, in
order, each appended to the then-current path with a fresh path generated
after each flush (the `markerFlushes` chain), and the trailing span becomes
the buffer; concretely, marker `0x04` with the single read
`"AAA\x04BBB\x04"` yields exactly the two marker-triggered batches `"AAA"`
and `"BBB"` with nothing left to idle-flush. -/
theorem C2_marker_framing :
    (∀ (e : List Nat) (idle : Int) (s : FState) (chunk : List Nat)
        (now : Int),
      e ≠ [] → chunk ≠ [] → containsSeq e (s.buf ++ chunk) = true →
        (step (some e) idle s (chunk, now)).out =
          s.out ++ markerFlushes s.curPath s.nextPath
            ((splitSeq e (s.buf ++ chunk)).dropLast.filter
              (fun p => !p.isEmpty)) ∧
        (step (some e) idle s (chunk, now)).buf =
          (splitSeq e (s.buf ++ chunk)).getLastD []) ∧
    run (some [4]) 2 0 [([65, 65, 65, 4, 66, 66, 66, 4], 1), ([], 100)] =
      ⟨[], 1, 2, 3, [⟨Trigger.marker, 0, [65, 65, 65]⟩,
        ⟨Trigger.marker, 1, [66, 66, 66]⟩]⟩ := by
  constructor
  · intro e idle s chunk now he hch hc
    exact ⟨step_data_split_out hch he hc, step_data_split_buf hch he hc⟩
  · decide

/-- C2 witness: one marker split, evaluated on concrete state and input. -/
theorem C2_marker_framing_witness :
    (step (some [4]) 2 ⟨[65], 0, 5, 6, []⟩ ([4, 66], 3)).out =
      [⟨Trigger.marker, 5, [65]⟩] ∧
    (step (some [4]) 2 ⟨[65], 0, 5, 6, []⟩ ([4, 66], 3)).buf = [66] := by
  have h := C2_marker_framing.1 [4] 2 ⟨[65], 0, 5, 6, []⟩ [4, 66] 3
    (by decide) (by decide) (by decide)
  exact ⟨h.1.trans (by decide), h.2.trans (by decide)⟩

/-- C3 (confirmed): after a marker split, the trailing span after the last
occurrence becomes the accumulation buffer, and the bytes flushed during
the data iteration are exactly the non-empty spans strictly before markers
(so the remainder is not flushed by that iteration); concretely, marker
`0x04` with stream `"AAA\x04BB"` followed by idle expiry yields exactly the
batches `"AAA"` (marker-triggered) then `"BB"` (idle-triggered), in that
order. -/
theorem C3_remainder_retained :
    (∀ (e : List Nat) (idle : Int) (s : FState) (chunk : List Nat)
        (now : Int),
      e ≠ [] → chunk ≠ [] → containsSeq e (s.buf ++ chunk) = true →
        (step (some e) idle s (chunk, now)).buf =
          (splitSeq e (s.buf ++ chunk)).getLastD [] ∧
        (step (some e) idle s (chunk, now)).out.map Flush.data =
          s.out.map Flush.data ++
            (splitSeq e (s.buf ++ chunk)).dropLast.filter
              (fun p => !p.isEmpty)) ∧
    run (some [4]) 2 0 [([65, 65, 65, 4, 66, 66], 1), ([], 4)] =
      ⟨[], 1, 2, 3, [⟨Trigger.marker, 0, [65, 65, 65]⟩,
        ⟨Trigger.idle, 1, [66, 66]⟩]⟩ := by
  constructor
  · intro e idle s chunk now he hch hc
    refine ⟨step_data_split_buf hch he hc, ?_⟩
    rw [step_data_split_out hch he hc]
    simp [markerFlushes_map_data]
  · decide

/-- C3 witness: remainder retention, evaluated on concrete state. -/
theorem C3_remainder_retained_witness :
    (step (some [4]) 2 ⟨[65], 0, 5, 6, []⟩ ([4, 66], 3)).buf = [66] ∧
    (step (some [4]) 2 ⟨[65], 0, 5, 6, []⟩ ([4, 66], 3)).out.map Flush.data =
      [[65]] := by
  have h := C3_remainder_retained.1 [4] 2 ⟨[65], 0, 5, 6, []⟩ [4, 66] 3
    (by decide) (by decide) (by decide)
  exact ⟨h.1.trans (by decide), h.2.trans (by decide)⟩

/-- C4 (counterexample): the code flushes when the elapsed time EQUALS the
idle threshold (`>=` at line 183), not only when it strictly exceeds it: at
threshold 2, data at time 10 and an empty read at time 12 produce an idle
flush although 12 - 10 > 2 is false, refuting the claimed
"flush iff elapsed exceeds the threshold". -/
theorem C4_counterexample :
    (run none 2 0 [([65, 66, 67], 10), ([], 12)]).out =
      [⟨Trigger.idle, 0, [65, 66, 67]⟩] ∧
    ¬ ((12 : Int) - 10 > 2) := by
  decide

/-- C4 (amended): on a no-data iteration the framer flushes iff the buffer
is non-empty and the elapsed time since the activity clock is at least
(`≥`, not strictly greater than) the idle threshold; the flush writes the
whole buffer to the current path, clears the buffer and generates a fresh
path; a stream delivering `"ABC"` then silence beyond the threshold yields
exactly one batch containing exactly `"ABC"`. -/
theorem C4_idle_framing_amended :
    (∀ (eot : Option (List Nat)) (idle : Int) (s : FState) (now : Int),
      (step eot idle s ([], now)).out ≠ s.out ↔
        s.buf ≠ [] ∧ now - s.lastData ≥ idle) ∧
    (∀ (eot : Option (List Nat)) (idle : Int) (s : FState) (now : Int),
      s.buf ≠ [] → now - s.lastData ≥ idle →
        step eot idle s ([], now) =
          { s with out := s.out ++ [⟨Trigger.idle, s.curPath, s.buf⟩],
                   buf := [],
                   curPath := s.nextPath, nextPath := s.nextPath + 1 }) ∧
    run none 2 0 [([65, 66, 67], 1), ([], 10)] =
      ⟨[], 1, 1, 2, [⟨Trigger.idle, 0, [65, 66, 67]⟩]⟩ := by
  refine ⟨?_, ?_, by decide⟩
  · intro eot idle s now
    constructor
    · intro hne
      by_cases hcond : s.buf ≠ [] ∧ now - s.lastData ≥ idle
      · exact hcond
      · rw [step_idle_skip hcond] at hne
        exact absurd rfl hne
    · intro hcond
      rw [step_idle_flush hcond.1 hcond.2]
      intro heq
      have hlen := congrArg List.length heq
      simp at hlen
  · intro eot idle s now hb ht
    exact step_idle_flush hb ht

/-- C4 witness: a threshold-reaching idle flush on concrete state. -/
theorem C4_idle_framing_amended_witness :
    step none 2 ⟨[65], 0, 3, 4, []⟩ ([], 7) =
      ⟨[], 0, 4, 5, [⟨Trigger.idle, 3, [65]⟩]⟩ :=
  (C4_idle_framing_amended.2.1 none 2 ⟨[65], 0, 3, 4, []⟩ 7 (by decide)
    (by decide)).trans (by decide)

/-- C5 (confirmed): the generated batch name embeds the capture timestamp
down to microseconds (`%f`), so two batches whose capture instants fall in
the same wall-clock second but differ in the sub-second (microsecond)
component receive distinct names. -/
theorem C5_name_uniqueness (t1 t2 : TS)
    (hy : t1.year = t2.year) (hmo : t1.month = t2.month)
    (hd : t1.day = t2.day) (hh : t1.hour = t2.hour)
    (hmi : t1.minute = t2.minute) (hs : t1.second = t2.second)
    (hm1 : t1.micro < 1000000) (hm2 : t2.micro < 1000000)
    (hne : t1.micro ≠ t2.micro) :
    fujiName t1 ≠ fujiName t2 := by
  intro h
  apply hne
  unfold fujiName at h
  rw [hy, hmo, hd, hh, hmi, hs] at h
  replace h := append_cancel_r h
  replace h := append_cancel_l h
  have hpow : (10 : ℕ) ^ 6 = 1000000 := by norm_num
  refine digitsAscii_inj ?_ ?_ h
  · rw [hpow]; exact hm1
  · rw [hpow]; exact hm2

/-- C5 witness: same second, different microseconds, distinct names. -/
theorem C5_name_uniqueness_witness :
    fujiName ⟨2024, 5, 6, 7, 8, 9, 1⟩ ≠ fujiName ⟨2024, 5, 6, 7, 8, 9, 2⟩ :=
  C5_name_uniqueness _ _ rfl rfl rfl rfl rfl rfl (by decide) (by decide)
    (by decide)

/-- C6 (confirmed): a non-empty marker configuration that `unhexlify`
rejects makes startup print the warning once and leave the marker
disabled (`eot = None`), and the loop then never performs anything but
idle-triggered flushes; no exception escapes (the model is total). -/
theorem C6_marker_fallback (s : String) (hne : s ≠ "")
    (hbad : unhexBytes s.data = none) :
    parseEotWarn s = (none, true) ∧
    ∀ (idle t0 : Int) (inputs : List (List Nat × Int)),
      ((run none idle t0 inputs).out.all
        (fun f => f.trig == Trigger.idle)) = true := by
  constructor
  · simp [parseEotWarn, hne, hbad]
  · intro idle t0 inputs
    rw [List.all_eq_true]
    intro f hf
    have := run_none_trig idle t0 inputs f hf
    simp [this]

/-- C6 witness: the invalid marker `"zz"` disables splitting; a concrete
idle-only run flushes only with the inactivity trigger. -/
theorem C6_marker_fallback_witness :
    parseEotWarn "zz" = (none, true) ∧
    ((run none 1 0 [([65, 66], 1), ([], 3)]).out.all
      (fun f => f.trig == Trigger.idle)) = true := by
  have h := C6_marker_fallback "zz" (by decide) (by decide)
  exact ⟨h.1, h.2 1 0 [([65, 66], 1), ([], 3)]⟩

/-- C7 (confirmed): a no-data iteration with an empty accumulation buffer
changes nothing at all — no file is produced and the buffer, activity
clock and current output path are all left exactly as they were, however
long the silence has lasted. -/
theorem C7_empty_idle_noop (eot : Option (List Nat)) (idle : Int)
    (s : FState) (now : Int) (hb : s.buf = []) :
    step eot idle s ([], now) = s := by
  apply step_idle_skip
  intro hcond
  exact hcond.1 hb

/-- C7 witness: a long-idle empty-buffer iteration on the initial state. -/
theorem C7_empty_idle_noop_witness :
    step none 1 (initState 0) ([], 100) = initState 0 :=
  C7_empty_idle_noop none 1 (initState 0) 100 rfl

/-- C8 (counterexample): a malformed stop-bits setting is NOT caught: with
`FUJI500_STOPBITS="abc"` the configuration block raises (modelled as
`Except.error`), so startup does not succeed with a fallback as the claim
states. -/
theorem C8_counterexample :
    loadLinkConfig
        (fun n => if n = "FUJI500_STOPBITS" then some "abc" else none) =
      Except.error "could not convert string to float" := by
  rfl

/-- C8 (amended): malformed baud, data-bits, read-timeout and
idle-threshold settings silently fall back to their defaults (9600, 8,
2.0, 1.5); a malformed stop-bits setting is instead fatal at startup (the
`float` conversion is unguarded); out-of-range data bits fall back to 8
via the serial mapping, while out-of-range stop bits map to 2 (not the
default 1); baud, timeout and idle values that parse are used as-is with
no range validation. -/
theorem C8_numeric_fallback_amended :
    (∀ s : String, parseIntPy s = none → getEnvInt (some s) 9600 = 9600) ∧
    (∀ s : String, parseIntPy s = none → getEnvInt (some s) 8 = 8) ∧
    (∀ s : String, parseFloatQ s = none → getEnvFloat (some s) 2 = 2) ∧
    (∀ s : String, parseFloatQ s = none →
      getEnvFloat (some s) (3 / 2) = 3 / 2) ∧
    (∀ s : String, parseFloatQ s = none →
      loadStopbits (some s) =
        Except.error "could not convert string to float") ∧
    (∀ b : Int, b ≠ 5 → b ≠ 6 → b ≠ 7 → serialBytesize b = 8) ∧
    (∀ q : ℚ, q ≠ 1 → q ≠ 3 / 2 → serialStopbits q = 2) := by
  refine ⟨?_, ?_, ?_, ?_, ?_, ?_, ?_⟩
  · intro s h; simp [getEnvInt, h]
  · intro s h; simp [getEnvInt, h]
  · intro s h; simp [getEnvFloat, h]
  · intro s h; simp [getEnvFloat, h]
  · intro s h; simp [loadStopbits, h]
  · intro b h5 h6 h7; simp [serialBytesize, h5, h6, h7]
  · intro q h1 h2; simp [serialStopbits, h1, h2]

/-- C8 witness: each fallback and the stop-bits failure on concrete
malformed or out-of-range values. -/
theorem C8_numeric_fallback_amended_witness :
    getEnvInt (some "fast") 9600 = 9600 ∧
    getEnvInt (some "many") 8 = 8 ∧
    getEnvFloat (some "soon") 2 = 2 ∧
    getEnvFloat (some "later") (3 / 2) = 3 / 2 ∧
    loadStopbits (some "abc") =
      Except.error "could not convert string to float" ∧
    serialBytesize 9 = 8 ∧
    serialStopbits 7 = 2 :=
  ⟨C8_numeric_fallback_amended.1 "fast" rfl,
   C8_numeric_fallback_amended.2.1 "many" rfl,
   C8_numeric_fallback_amended.2.2.1 "soon" rfl,
   C8_numeric_fallback_amended.2.2.2.1 "later" rfl,
   C8_numeric_fallback_amended.2.2.2.2.1 "abc" rfl,
   C8_numeric_fallback_amended.2.2.2.2.2.1 9 (by decide) (by decide)
     (by decide),
   C8_numeric_fallback_amended.2.2.2.2.2.2 7 (by norm_num) (by norm_num)⟩

/-- C9 (confirmed): the activity clock is written exactly when a read
yields data — a data iteration stamps the current time, and every no-data
iteration (idle flush included) and every marker flush leaves it
untouched, so idle duration is always measured from the last data
arrival, never from the last flush. -/
theorem C9_activity_clock (eot : Option (List Nat)) (idle : Int)
    (s : FState) (chunk : List Nat) (now : Int) :
    (step eot idle s (chunk, now)).lastData =
      if chunk = [] then s.lastData else now :=
  step_lastData eot idle s chunk now

/-- C10 (confirmed): with a non-empty marker configured, no flushed batch
ever contains the marker as a substring (`containsSeq` is the model of
Python's `in`; `containsSeq_iff_append` characterises it as substring
occurrence), and the accumulation buffer is marker-free after every
iteration — marker-triggered spans come from the split and idle-flushed
buffers had any occurrence split out on arrival. -/
theorem C10_no_marker_in_batches (e : List Nat) (he : e ≠ [])
    (idle t0 : Int) (inputs : List (List Nat × Int)) :
    ((run (some e) idle t0 inputs).out.all
      (fun f => !(containsSeq e f.data))) = true ∧
    containsSeq e (run (some e) idle t0 inputs).buf = false := by
  obtain ⟨hbuf, hout⟩ := run_marker_free he idle t0 inputs
  refine ⟨?_, hbuf⟩
  rw [List.all_eq_true]
  intro f hf
  simp [hout f hf]

/-- C10 witness: a run with both a marker-triggered and an idle-triggered
flush; no batch contains the marker. -/
theorem C10_no_marker_in_batches_witness :
    ((run (some [4]) 1 0 [([65, 4, 66], 1), ([], 3)]).out.all
      (fun f => !(containsSeq [4] f.data))) = true ∧
    containsSeq [4] (run (some [4]) 1 0 [([65, 4, 66], 1), ([], 3)]).buf =
      false :=
  C10_no_marker_in_batches [4] (by decide) 1 0 [([65, 4, 66], 1), ([], 3)]

end Fuji500
